import Mathlib

/-!
Verification development for the latency-ranking core of `fastest_sites.py`.

The script probes TCP connection latency to a set of mirror URLs and returns
the URLs of each group sorted by ascending latency.  The core under study is
the function `FindFastest(varname, sitelist)` together with the `AsyncConnect`
dispatcher class and the `asyncore` event loop that drives it.

Shallow embedding conventions:
* A network environment `Env` assigns to every URL string the observable
  behaviour of its connection attempt: `gaierror` (host resolution fails,
  raised synchronously by `connect`), `writableAt t` (the socket becomes
  writable -- i.e. the connect handshake finishes or is refused -- at
  absolute time `t`, firing `handle_write` once), or `silent` (the socket
  never reports an event).  A URL that parses without a host never consults
  the environment: its `connect((None, port))` raises an uncaught TypeError
  that aborts the whole call, modelled as `PyError.typeError`.
* Time is a natural number of time units; all probes are constructed at
  time 0 (the construction loop is instantaneous relative to network
  latency, so every `_start_time` is 0 and a `handle_write` dispatched at
  time `t` records duration `t`).
* Python's `set(sitelist)` has unspecified iteration order; since the
  computation is insensitive to that order, the model determinises it as
  the canonically sorted deduplicated list (`pySet`).
* `asyncore.loop(timeout, count)` runs at most `count` `select`-style poll
  steps, stopping early once the socket map is empty (`loopCount`); with
  `count=None` it polls until the socket map is empty, which the model
  totalises with an explicitly sufficient fuel (`loopAll`): the fuel is
  provably enough whenever every remaining socket eventually reports an
  event, the only case in which the real unbounded loop terminates.
* A poll step mirrors `select`: it waits at most `timeout` units; if some
  monitored socket becomes ready within the window it returns at the first
  such moment and dispatches every socket that is ready then, otherwise it
  returns empty after the full timeout.
-/

set_option maxRecDepth 8000

namespace FastestSites

/-- Uncaught exceptions escaping `FindFastest`.  `valueError` models the
tuple unpacking of `url.split(":", 2)` in `ParseURL` failing (not exactly two
parts); `keyError` models the lookup `AsyncConnect.schemes[scheme]` in
`ParseURL` failing (unknown scheme); `typeError` models
`self.connect((None, port))` when `urllib.splithost` found no host — CPython
2's address converter rejects `None` with a `TypeError` that the constructor
does not catch (only `socket.gaierror` is). -/
inductive PyError where
  | valueError
  | keyError
  | typeError
deriving DecidableEq, Repr

/-- Observable behaviour of the connection attempt for one URL: resolution
failure raised synchronously by `connect`, a writable event at absolute time
`t`, or no event at all. -/
inductive ConnBehavior where
  | gaierror
  | writableAt (t : Nat)
  | silent
deriving DecidableEq, Repr

/-- A network environment fixes the connection behaviour of every URL. -/
abbrev Env := String → ConnBehavior

/-- Split a character list at the first occurrence of `sep`, if any. -/
def breakAt (sep : Char) : List Char → Option (List Char × List Char)
  | [] => none
  | c :: cs =>
    if c = sep then some ([], cs)
    else (breakAt sep cs).map (fun p => (c :: p.1, p.2))

/-- Python's `s.split(sep, maxsplit)` on character lists: split at the first
`maxsplit` occurrences of `sep`, keeping the remainder intact. -/
def splitLimit (sep : Char) : Nat → List Char → List (List Char)
  | 0, cs => [cs]
  | n + 1, cs =>
    match breakAt sep cs with
    | none => [cs]
    | some (p, q) => p :: splitLimit sep n q

/-- Python 2's `urllib.splithost`, the regex `^//([^/?]*)(.*)$`: if the input
starts with `//`, the host is everything up to the first `/` or `?` and the
rest is the path; otherwise the host is absent. -/
def splithost : List Char → Option (List Char) × List Char
  | '/' :: '/' :: rest =>
    (some (rest.takeWhile (fun c => !(c == '/' || c == '?'))),
     rest.dropWhile (fun c => !(c == '/' || c == '?')))
  | cs => (none, cs)

/-- The `AsyncConnect.schemes` dictionary: scheme name to port. -/
def schemes (s : String) : Option Nat :=
  if s = "http" then some 80
  else if s = "ftp" then some 21
  else if s = "https" then some 443
  else none

/-- `AsyncConnect.ParseURL`: `(scheme, remainder) = url.split(":", 2)` (a
`ValueError` unless the split yields exactly two parts), then
`urllib.splithost(remainder)` for the host, then the scheme table lookup for
the port (a `KeyError` for an unknown scheme). -/
def ParseURL (url : String) : Except PyError (Option (List Char) × Nat) :=
  match splitLimit ':' 2 url.toList with
  | [scheme, remainder] =>
    let h := splithost remainder
    match schemes (String.mk scheme) with
    | some port => .ok (h.1, port)
    | none => .error .keyError
  | _ => .error .valueError

/-- Does the URL parse with a host present?  Only such URLs reach the event
loop: a URL that parses without a host starts its probe and then crashes the
whole call with the uncaught `TypeError` of `connect((None, port))`. -/
def hasHost (u : String) : Bool :=
  match ParseURL u with
  | .ok (some _, _) => true
  | .ok (none, _) => false
  | .error _ => false

/-- Lexicographic order on character lists by code point, mirroring Python 2's
byte-wise comparison of URL strings (the URLs at hand are ASCII, where the two
coincide).  Defined structurally so that it evaluates by kernel reduction. -/
def lexLe : List Char → List Char → Bool
  | [], _ => true
  | _ :: _, [] => false
  | a :: as, b :: bs => if a = b then lexLe as bs else decide (a.toNat < b.toNat)

/-- Lexicographic order on strings, as used by Python's tuple comparison when
sorting `(latency, url)` pairs and to determinise set iteration order. -/
def strLe (a b : String) : Bool :=
  lexLe a.toList b.toList

/-- Propositional form of `strLe`. -/
def strLeP (a b : String) : Prop :=
  strLe a b = true

instance : DecidableRel strLeP := fun a b => by
  unfold strLeP; infer_instance

instance {e a : Type} [DecidableEq e] [DecidableEq a] : DecidableEq (Except e a)
  | .ok x, .ok y =>
    if h : x = y then .isTrue (by rw [h]) else .isFalse (by intro hc; cases hc; exact h rfl)
  | .error x, .error y =>
    if h : x = y then .isTrue (by rw [h]) else .isFalse (by intro hc; cases hc; exact h rfl)
  | .ok _, .error _ => .isFalse (by intro hc; cases hc)
  | .error _, .ok _ => .isFalse (by intro hc; cases hc)

/-- An open asyncore socket: the URL it probes and the absolute time at which
it becomes writable (`none` for a socket that never reports an event). -/
structure Sock where
  url : String
  eventTime : Option Nat
deriving DecidableEq, Repr

/-- State of one `FindFastest` run: current time, the asyncore socket map,
and the `latencies` dictionary as an association list in insertion order. -/
structure SchedState where
  now : Nat
  opens : List Sock
  lat : List (String × Nat)
deriving DecidableEq, Repr

/-- The `callback` closure of `FindFastest`:
`latencies.setdefault(url, 0); latencies[url] += duration`. -/
def addLat : List (String × Nat) → String → Nat → List (String × Nat)
  | [], u, d => [(u, d)]
  | (v, x) :: rest, u, d =>
    if v = u then (v, x + d) :: rest else (v, x) :: addLat rest u d

/-- Event times of open sockets that become ready within the poll window. -/
def readyTimes (timeout now : Nat) (opens : List Sock) : List Nat :=
  opens.filterMap fun k =>
    k.eventTime.bind fun t => if t ≤ now + timeout then some t else none

/-- Minimum of a list of naturals, `none` on the empty list. -/
def minAux : List Nat → Option Nat
  | [] => none
  | t :: ts =>
    match minAux ts with
    | none => some t
    | some m => some (Nat.min t m)

/-- Does this socket's event fire at or before `tfire`? -/
def fires (tfire : Nat) (k : Sock) : Bool :=
  match k.eventTime with
  | some t => t ≤ tfire
  | none => false

/-- One `asyncore.poll` step, i.e. one `select` call over the socket map:
if no monitored socket becomes ready within `timeout` units, time advances by
the full timeout and nothing is dispatched; otherwise `select` returns at the
first moment a socket is ready (never before `now`) and `handle_write` runs
for every socket ready at that moment, recording for each the elapsed
duration `time.time() - start_time` (start times are all 0) and closing it. -/
def poll (timeout : Nat) (s : SchedState) : SchedState :=
  match minAux (readyTimes timeout s.now s.opens) with
  | none => { s with now := s.now + timeout }
  | some tmin =>
    let tfire := Nat.max s.now tmin
    { now := tfire
      opens := s.opens.filter (fun k => !fires tfire k)
      lat := (s.opens.filter (fires tfire)).foldl
        (fun m k => addLat m k.url tfire) s.lat }

/-- `asyncore.loop(timeout=timeout, count=n)`: up to `n` poll steps, stopping
as soon as the socket map is empty. -/
def loopCount (timeout : Nat) : Nat → SchedState → SchedState
  | 0, s => s
  | n + 1, s => if s.opens.isEmpty then s else loopCount timeout n (poll timeout s)

/-- Largest event time among the open sockets (0 when there is none). -/
def maxEvent (s : SchedState) : Nat :=
  s.opens.foldr (fun k m => Nat.max (k.eventTime.getD 0) m) 0

/-- Fuel that provably suffices for the unbounded `asyncore.loop` whenever
every open socket eventually reports an event. -/
def secFuel (s : SchedState) : Nat :=
  s.opens.length + (maxEvent s - s.now) + 1

/-- `asyncore.loop(timeout=timeout)` with `count=None`: poll until the socket
map is empty.  Totalised by fuel; the fuel is sufficient whenever every open
socket has an event time, which is the only case in which the real loop
terminates. -/
def loopAll (timeout : Nat) (s : SchedState) : SchedState :=
  loopCount timeout (secFuel s) s

/-- The construction loop `for url in sitelist: AsyncConnect(url, callback)`:
each URL is parsed (a parse error propagates immediately, before any socket
exists), then a socket is created and `connect` issued.  When the parsed
host is absent (`urllib.splithost` returned `None`), `connect((None, port))`
raises an uncaught `TypeError` that aborts the whole call.  Otherwise a
`socket.gaierror` is caught and handled by `callback(url, 1000)` plus
`close()`, so the URL lands in the latency table with the sentinel 1000 and
opens no lasting socket; any other outcome leaves the socket in the asyncore
map with the behaviour the environment assigns. -/
def initLoop (env : Env) :
    List String → List Sock × List (String × Nat) →
    Except PyError (List Sock × List (String × Nat))
  | [], acc => .ok acc
  | u :: rest, acc =>
    match ParseURL u with
    | .error e => .error e
    | .ok (none, _) => .error .typeError
    | .ok (some _, _) =>
      match env u with
      | .gaierror => initLoop env rest (acc.1, addLat acc.2 u 1000)
      | .writableAt t => initLoop env rest (acc.1 ++ [⟨u, some t⟩], acc.2)
      | .silent => initLoop env rest (acc.1 ++ [⟨u, none⟩], acc.2)

/-- Python's `set(sitelist)`: deduplicated, determinised into the canonical
ascending order (set iteration order is unspecified and the run's result is
insensitive to it). -/
def pySet (l : List String) : List String :=
  List.insertionSort strLeP l.dedup

/-- The `count` passed to the primary `asyncore.loop`: the number of unique
URLs, capped at 10 (`if count > 10: count = 10`). -/
def primaryIters (sitelist : List String) : Nat :=
  min (pySet sitelist).length 10

/-- State after constructing all probes, before any polling. -/
def initState (env : Env) (sitelist : List String) : Except PyError SchedState :=
  (initLoop env (pySet sitelist) ([], [])).map fun p => ⟨0, p.1, p.2⟩

/-- State after the primary wait phase `asyncore.loop(timeout=1, count=count)`. -/
def primaryState (env : Env) (sitelist : List String) : Except PyError SchedState :=
  (initState env sitelist).map (loopCount 1 (primaryIters sitelist))

/-- State after the optional secondary wait phase, paired with whether the
"still waiting" diagnostic was emitted: if the latency table is empty after
the primary phase, the script prints the diagnostic and runs
`asyncore.loop(timeout=30)`; otherwise nothing further happens. -/
def finalState (env : Env) (sitelist : List String) :
    Except PyError (SchedState × Bool) :=
  (primaryState env sitelist).map fun s1 =>
    if s1.lat.isEmpty then (loopAll 30 s1, true) else (s1, false)

/-- Sort order of the final `sorted(latencies.iteritems(), key=lambda (a,b): (b,a))`:
ascending by elapsed time, ties broken by ascending URL string. -/
def rankOrd (p q : String × Nat) : Prop :=
  p.2 < q.2 ∨ (p.2 = q.2 ∧ strLeP p.1 q.1)

instance : DecidableRel rankOrd := fun p q => by
  unfold rankOrd; infer_instance

/-- The final sort of the latency table (a stable sort, as Python's `sorted`). -/
def pySort (l : List (String × Nat)) : List (String × Nat) :=
  List.insertionSort rankOrd l

/-- Observable outcome of one `FindFastest` call: the latency table as built,
its sorted form (the returned list), whether the "still waiting" diagnostic
was printed, and the URLs of sockets still open at `asyncore.close_all()`
(the abandoned probes). -/
structure RunResult where
  table : List (String × Nat)
  ranking : List (String × Nat)
  stillWaiting : Bool
  abandoned : List String
deriving DecidableEq, Repr

/-- The whole of `FindFastest(varname, sitelist)` with its observable events. -/
def FindFastestRun (env : Env) (sitelist : List String) :
    Except PyError RunResult :=
  (finalState env sitelist).map fun p =>
    { table := p.1.lat
      ranking := pySort p.1.lat
      stillWaiting := p.2
      abandoned := p.1.opens.map Sock.url }

/-- The value `FindFastest` returns: the latency table sorted by
`(elapsed, url)` as a list of `(url, elapsed)` pairs. -/
def FindFastest (env : Env) (sitelist : List String) :
    Except PyError (List (String × Nat)) :=
  (FindFastestRun env sitelist).map RunResult.ranking

/-- URLs for which `create_socket` and `connect` are reached, walking the
deduplicated list as construction does: a URL that fails to parse stops
construction before any socket exists; a URL that parses without a host
still gets its socket and connect attempt, but the uncaught `TypeError`
then stops everything; any other URL is probed (a `gaierror` is raised by
`connect` itself, after the socket exists) and construction continues. -/
def probesStartedAux : List String → List String
  | [] => []
  | u :: rest =>
    match ParseURL u with
    | .error _ => []
    | .ok (none, _) => [u]
    | .ok (some _, _) => u :: probesStartedAux rest

/-- URLs for which a probe is started during one `FindFastest` call. -/
def probesStarted (sitelist : List String) : List String :=
  probesStartedAux (pySet sitelist)

/-! ### Properties of the lexicographic order -/

theorem charEq_of_toNat {a b : Char} (h : a.toNat = b.toNat) : a = b := by
  have h2 : a.val = b.val := UInt32.toNat.inj h
  exact Char.ext h2

theorem lexLe_total : ∀ as bs : List Char, lexLe as bs = true ∨ lexLe bs as = true
  | [], _ => Or.inl rfl
  | _ :: _, [] => Or.inr rfl
  | a :: as, b :: bs => by
    by_cases hab : a = b
    · subst hab
      rcases lexLe_total as bs with h | h
      · exact Or.inl (by simp [lexLe, h])
      · exact Or.inr (by simp [lexLe, h])
    · rcases Nat.lt_trichotomy a.toNat b.toNat with h | h | h
      · exact Or.inl (by simp [lexLe, hab, h])
      · exact absurd (charEq_of_toNat h) hab
      · have hba : ¬b = a := fun e => hab e.symm
        exact Or.inr (by simp [lexLe, hba, h])

theorem lexLe_trans : ∀ as bs cs : List Char,
    lexLe as bs = true → lexLe bs cs = true → lexLe as cs = true
  | [], _, _, _, _ => rfl
  | _ :: _, [], _, h1, _ => by simp [lexLe] at h1
  | _ :: _, _ :: _, [], _, h2 => by simp [lexLe] at h2
  | a :: as, b :: bs, c :: cs, h1, h2 => by
    by_cases hab : a = b <;> by_cases hbc : b = c
    · subst hab; subst hbc
      simp only [lexLe, if_pos rfl] at h1 h2 ⊢
      exact lexLe_trans as bs cs h1 h2
    · subst hab
      simp only [lexLe, if_pos rfl] at h1
      simp only [lexLe, if_neg hbc] at h2 ⊢
      exact h2
    · subst hbc
      simp only [lexLe, if_neg hab] at h1 ⊢
      exact h1
    · simp only [lexLe, if_neg hab, if_neg hbc, decide_eq_true_eq] at h1 h2
      have hac : ¬a = c := by
        intro e; subst e
        exact absurd (Nat.lt_trans h1 h2) (lt_irrefl _)
      simp only [lexLe, if_neg hac, decide_eq_true_eq]
      exact Nat.lt_trans h1 h2

theorem lexLe_antisymm : ∀ as bs : List Char,
    lexLe as bs = true → lexLe bs as = true → as = bs
  | [], [], _, _ => rfl
  | [], _ :: _, _, h2 => by simp [lexLe] at h2
  | _ :: _, [], h1, _ => by simp [lexLe] at h1
  | a :: as, b :: bs, h1, h2 => by
    by_cases hab : a = b
    · subst hab
      simp only [lexLe, if_pos rfl] at h1 h2
      rw [lexLe_antisymm as bs h1 h2]
    · have hba : ¬b = a := fun e => hab e.symm
      simp only [lexLe, if_neg hab, if_neg hba, decide_eq_true_eq] at h1 h2
      exact absurd (Nat.lt_trans h1 h2) (lt_irrefl _)

instance : IsTotal String strLeP :=
  ⟨fun a b => lexLe_total a.toList b.toList⟩

instance : IsTrans String strLeP :=
  ⟨fun a b c => lexLe_trans a.toList b.toList c.toList⟩

instance : IsAntisymm String strLeP :=
  ⟨fun a b h1 h2 => String.toList_inj.mp (lexLe_antisymm a.toList b.toList h1 h2)⟩

instance : IsTotal (String × Nat) rankOrd := ⟨by
  intro p q
  rcases Nat.lt_trichotomy p.2 q.2 with h | h | h
  · exact Or.inl (Or.inl h)
  · rcases lexLe_total p.1.toList q.1.toList with hs | hs
    · exact Or.inl (Or.inr ⟨h, hs⟩)
    · exact Or.inr (Or.inr ⟨h.symm, hs⟩)
  · exact Or.inr (Or.inl h)⟩

instance : IsTrans (String × Nat) rankOrd := ⟨by
  intro p q r h1 h2
  rcases h1 with h1 | ⟨e1, s1⟩
  · rcases h2 with h2 | ⟨e2, _⟩
    · exact Or.inl (Nat.lt_trans h1 h2)
    · exact Or.inl (e2 ▸ h1)
  · rcases h2 with h2 | ⟨e2, s2⟩
    · exact Or.inl (e1 ▸ h2)
    · exact Or.inr ⟨e1.trans e2, lexLe_trans _ _ _ s1 s2⟩⟩

/-! ### Basic facts about the deduplicated input and the final sort -/

theorem pySet_nodup (l : List String) : (pySet l).Nodup :=
  ((List.perm_insertionSort strLeP l.dedup).nodup_iff).mpr l.nodup_dedup

theorem mem_pySet {u : String} {l : List String} : u ∈ pySet l ↔ u ∈ l := by
  unfold pySet
  rw [List.mem_insertionSort, List.mem_dedup]

theorem pySet_sorted (l : List String) : (pySet l).Sorted strLeP :=
  List.sorted_insertionSort strLeP l.dedup

theorem pySet_append_self (l : List String) : pySet (l ++ l) = pySet l := by
  have hperm : List.Perm (l ++ l).dedup l.dedup := by
    apply (List.perm_ext_iff_of_nodup (l ++ l).nodup_dedup l.nodup_dedup).mpr
    intro a
    simp [List.mem_dedup]
  have h1 : List.Perm (pySet (l ++ l)) (pySet l) :=
    ((List.perm_insertionSort strLeP (l ++ l).dedup).trans hperm).trans
      (List.perm_insertionSort strLeP l.dedup).symm
  exact List.eq_of_perm_of_sorted h1 (pySet_sorted (l ++ l)) (pySet_sorted l)

theorem pySort_perm (l : List (String × Nat)) : List.Perm (pySort l) l :=
  List.perm_insertionSort rankOrd l

theorem pySort_sorted (l : List (String × Nat)) : (pySort l).Sorted rankOrd :=
  List.sorted_insertionSort rankOrd l

/-! ### Basic facts about the poll ingredients -/

theorem minAux_eq_none {l : List Nat} : minAux l = none ↔ l = [] := by
  cases l with
  | nil => simp [minAux]
  | cons t ts =>
    simp only [minAux]
    cases minAux ts <;> simp

theorem minAux_mem : ∀ {l : List Nat} {m : Nat}, minAux l = some m → m ∈ l
  | [], _, h => by simp [minAux] at h
  | t :: ts, m, h => by
    simp only [minAux] at h
    cases hts : minAux ts with
    | none => rw [hts] at h; cases h; exact List.mem_cons_self t ts
    | some m' =>
      rw [hts] at h
      cases h
      show (if t ≤ m' then t else m') ∈ t :: ts
      by_cases hle : t ≤ m'
      · rw [if_pos hle]
        exact List.mem_cons_self t ts
      · rw [if_neg hle]
        exact List.mem_cons_of_mem t (minAux_mem hts)

theorem minAux_le : ∀ {l : List Nat} {m : Nat}, minAux l = some m → ∀ x ∈ l, m ≤ x
  | [], _, h => by simp [minAux] at h
  | t :: ts, m, h => by
    intro x hx
    simp only [minAux] at h
    cases hts : minAux ts with
    | none =>
      rw [hts] at h; cases h
      rcases List.mem_cons.mp hx with he | he
      · rw [he]
      · exact absurd (minAux_eq_none.mp hts ▸ he) (List.not_mem_nil x)
    | some m' =>
      rw [hts] at h
      cases h
      rcases List.mem_cons.mp hx with he | he
      · rw [he]; exact Nat.min_le_left t m'
      · exact le_trans (Nat.min_le_right t m') (minAux_le hts x he)

theorem mem_readyTimes {timeout now : Nat} {opens : List Sock} {x : Nat} :
    x ∈ readyTimes timeout now opens ↔
      ∃ k ∈ opens, k.eventTime = some x ∧ x ≤ now + timeout := by
  unfold readyTimes
  rw [List.mem_filterMap]
  constructor
  · rintro ⟨k, hk, hbind⟩
    cases het : k.eventTime with
    | none => rw [het] at hbind; simp [Option.bind] at hbind
    | some t =>
      rw [het] at hbind
      simp only [Option.bind] at hbind
      by_cases hle : t ≤ now + timeout
      · rw [if_pos hle] at hbind; cases hbind
        exact ⟨k, hk, het, hle⟩
      · rw [if_neg hle] at hbind; cases hbind
  · rintro ⟨k, hk, het, hle⟩
    exact ⟨k, hk, by rw [het]; simp [Option.bind, if_pos hle]⟩

/-- URLs recorded in a latency table. -/
def keys (l : List (String × Nat)) : List String :=
  l.map Prod.fst

theorem addLat_of_not_mem : ∀ {m : List (String × Nat)} (u : String) (d : Nat),
    u ∉ keys m → addLat m u d = m ++ [(u, d)]
  | [], _, _, _ => rfl
  | (v, x) :: rest, u, d, h => by
    have hvu : ¬v = u := by
      intro e; exact h (by simp [keys, e])
    have hrest : u ∉ keys rest := by
      intro hr; exact h (by simp [keys] at hr ⊢; exact Or.inr hr)
    simp only [addLat, if_neg hvu, List.cons_append, List.cons.injEq, true_and]
    exact addLat_of_not_mem u d hrest

theorem addLat_ne_nil : ∀ (m : List (String × Nat)) (u : String) (d : Nat),
    addLat m u d ≠ []
  | [], _, _ => by simp [addLat]
  | (v, x) :: rest, u, d => by
    simp only [addLat]
    split <;> simp

theorem foldl_addLat_eq (tf : Nat) : ∀ (ks : List Sock) (m : List (String × Nat)),
    (∀ k ∈ ks, k.url ∉ keys m) → (ks.map Sock.url).Nodup →
    ks.foldl (fun m k => addLat m k.url tf) m = m ++ ks.map (fun k => (k.url, tf))
  | [], m, _, _ => by simp
  | k :: ks, m, hdisj, hnd => by
    have hk : k.url ∉ keys m := hdisj k (List.mem_cons_self k ks)
    have hstep : addLat m k.url tf = m ++ [(k.url, tf)] := addLat_of_not_mem _ _ hk
    have hnd' : (ks.map Sock.url).Nodup := (List.nodup_cons.mp hnd).2
    have hknotin : k.url ∉ ks.map Sock.url := (List.nodup_cons.mp hnd).1
    have hdisj' : ∀ k' ∈ ks, k'.url ∉ keys (m ++ [(k.url, tf)]) := by
      intro k' hk'
      simp only [keys, List.map_append, List.mem_append, List.map_cons, List.map_nil]
      rintro (h | h)
      · exact hdisj k' (List.mem_cons_of_mem k hk') h
      · simp only [List.mem_singleton] at h
        exact hknotin (h ▸ List.mem_map_of_mem Sock.url hk')
    rw [List.foldl_cons, hstep, foldl_addLat_eq tf ks (m ++ [(k.url, tf)]) hdisj' hnd']
    simp

theorem foldl_addLat_ne_nil (tf : Nat) : ∀ (ks : List Sock) (m : List (String × Nat)),
    m ≠ [] → ks.foldl (fun m k => addLat m k.url tf) m ≠ []
  | [], m, hm => hm
  | k :: ks, m, _ => by
    simp only [List.foldl_cons]
    exact foldl_addLat_ne_nil tf ks (addLat m k.url tf) (addLat_ne_nil m k.url tf)

/-! ### The run invariant and its preservation -/

/-- URLs of the open sockets. -/
def urlsOf (s : SchedState) : List String :=
  s.opens.map Sock.url

/-- An open socket carries exactly the event the environment assigns its URL;
in particular no open socket belongs to an unresolvable URL (those close in
the constructor). -/
def sockMatches (env : Env) (k : Sock) : Prop :=
  match k.eventTime with
  | some t => env k.url = .writableAt t
  | none => env k.url = .silent

/-- Invariant tying a scheduler state to the deduplicated URL set `U`:
the latency-table keys and the open-socket URLs partition `U`; every table
entry is either the constant 1000 for an unresolvable URL or a completion
time `d` with event time `t ≤ d ≤ now`; and every open socket matches the
environment. -/
structure Inv (U : List String) (env : Env) (s : SchedState) : Prop where
  hU : U.Nodup
  perm : (keys s.lat : Multiset String) + (urlsOf s : Multiset String) = (U : Multiset String)
  entries : ∀ p ∈ s.lat, (env p.1 = .gaierror ∧ p.2 = 1000) ∨
      (∃ t, env p.1 = .writableAt t ∧ t ≤ p.2 ∧ p.2 ≤ s.now)
  socks : ∀ k ∈ s.opens, sockMatches env k

theorem Inv.perm_append {U env s} (h : Inv U env s) :
    List.Perm (keys s.lat ++ urlsOf s) U := by
  apply Multiset.coe_eq_coe.mp
  simpa using h.perm

theorem Inv.nodup_append {U env s} (h : Inv U env s) :
    (keys s.lat ++ urlsOf s).Nodup :=
  h.perm_append.nodup_iff.mpr h.hU

theorem Inv.keys_nodup {U env s} (h : Inv U env s) : (keys s.lat).Nodup :=
  (List.nodup_append.mp h.nodup_append).1

theorem Inv.urls_nodup {U env s} (h : Inv U env s) : (urlsOf s).Nodup :=
  (List.nodup_append.mp h.nodup_append).2.1

theorem Inv.disjoint {U env s} (h : Inv U env s) :
    ∀ u ∈ keys s.lat, u ∉ urlsOf s :=
  fun _ hu => (List.nodup_append.mp h.nodup_append).2.2 hu

theorem Inv.mem_iff {U env s} (h : Inv U env s) {u : String} :
    u ∈ U ↔ u ∈ keys s.lat ∨ u ∈ urlsOf s := by
  rw [← h.perm_append.mem_iff, List.mem_append]

/-! ### Poll characterisation and preservation -/

theorem poll_eq_none {timeout : Nat} {s : SchedState}
    (h : minAux (readyTimes timeout s.now s.opens) = none) :
    poll timeout s = { s with now := s.now + timeout } := by
  unfold poll
  rw [h]

theorem poll_eq_some {timeout : Nat} {s : SchedState} {tmin : Nat}
    (h : minAux (readyTimes timeout s.now s.opens) = some tmin) :
    poll timeout s =
      { now := Nat.max s.now tmin
        opens := s.opens.filter (fun k => !fires (Nat.max s.now tmin) k)
        lat := (s.opens.filter (fires (Nat.max s.now tmin))).foldl
          (fun m k => addLat m k.url (Nat.max s.now tmin)) s.lat } := by
  unfold poll
  rw [h]

theorem poll_now_ge (timeout : Nat) (s : SchedState) : s.now ≤ (poll timeout s).now := by
  cases h : minAux (readyTimes timeout s.now s.opens) with
  | none => rw [poll_eq_none h]; exact Nat.le_add_right _ _
  | some tmin => rw [poll_eq_some h]; exact Nat.le_max_left _ _

theorem poll_now_le (timeout : Nat) (s : SchedState) :
    (poll timeout s).now ≤ s.now + timeout := by
  cases h : minAux (readyTimes timeout s.now s.opens) with
  | none => rw [poll_eq_none h]
  | some tmin =>
    rw [poll_eq_some h]
    have hmem := minAux_mem h
    rcases mem_readyTimes.mp hmem with ⟨k, _, _, hle⟩
    exact Nat.max_le.mpr ⟨Nat.le_add_right _ _, hle⟩

theorem poll_opens_subset {timeout : Nat} {s : SchedState} {k : Sock}
    (hk : k ∈ (poll timeout s).opens) : k ∈ s.opens := by
  cases h : minAux (readyTimes timeout s.now s.opens) with
  | none => rw [poll_eq_none h] at hk; exact hk
  | some tmin =>
    rw [poll_eq_some h] at hk
    exact List.mem_of_mem_filter hk

theorem poll_lat_ne_nil {timeout : Nat} {s : SchedState} (h : s.lat ≠ []) :
    (poll timeout s).lat ≠ [] := by
  cases hm : minAux (readyTimes timeout s.now s.opens) with
  | none => rw [poll_eq_none hm]; exact h
  | some tmin =>
    rw [poll_eq_some hm]
    exact foldl_addLat_ne_nil _ _ _ h

theorem poll_inv (timeout : Nat) {U : List String} {env : Env} {s : SchedState}
    (h : Inv U env s) : Inv U env (poll timeout s) := by
  cases hm : minAux (readyTimes timeout s.now s.opens) with
  | none =>
    rw [poll_eq_none hm]
    refine ⟨h.hU, h.perm, ?_, h.socks⟩
    intro p hp
    rcases h.entries p hp with he | ⟨t, ht, htp, hpn⟩
    · exact Or.inl he
    · exact Or.inr ⟨t, ht, htp, le_trans hpn (Nat.le_add_right _ _)⟩
  | some tmin =>
    rw [poll_eq_some hm]
    set tfire := Nat.max s.now tmin with htf
    have hfsub : ∀ k ∈ s.opens.filter (fires tfire), k ∈ s.opens :=
      fun k hk => List.mem_of_mem_filter hk
    have hfnd : ((s.opens.filter (fires tfire)).map Sock.url).Nodup :=
      h.urls_nodup.sublist (List.Sublist.map Sock.url (List.filter_sublist s.opens))
    have hfdisj : ∀ k ∈ s.opens.filter (fires tfire), k.url ∉ keys s.lat := by
      intro k hk hmem
      exact h.disjoint k.url hmem (List.mem_map_of_mem Sock.url (hfsub k hk))
    have hlat : (s.opens.filter (fires tfire)).foldl
        (fun m k => addLat m k.url tfire) s.lat =
        s.lat ++ (s.opens.filter (fires tfire)).map (fun k => (k.url, tfire)) :=
      foldl_addLat_eq tfire _ s.lat (fun k hk hin => hfdisj k hk hin) hfnd
    refine ⟨h.hU, ?_, ?_, ?_⟩
    · show (keys ((s.opens.filter (fires tfire)).foldl
          (fun m k => addLat m k.url tfire) s.lat) : Multiset String) +
        ((s.opens.filter (fun k => !fires tfire k)).map Sock.url : Multiset String) =
        (U : Multiset String)
      rw [hlat]
      have hkeys : keys (s.lat ++ (s.opens.filter (fires tfire)).map (fun k => (k.url, tfire))) =
          keys s.lat ++ (s.opens.filter (fires tfire)).map Sock.url := by
        simp [keys, Function.comp]
      rw [hkeys]
      have hpart : ((s.opens.filter (fires tfire)).map Sock.url : Multiset String) +
          ((s.opens.filter (fun k => !fires tfire k)).map Sock.url : Multiset String) =
          (urlsOf s : Multiset String) := by
        have hp : List.Perm
            ((s.opens.filter (fires tfire)).map Sock.url ++
              (s.opens.filter (fun k => !fires tfire k)).map Sock.url)
            (s.opens.map Sock.url) := by
          rw [← List.map_append]
          exact (List.filter_append_perm (fires tfire) s.opens).map Sock.url
        have := Multiset.coe_eq_coe.mpr hp
        simpa [urlsOf] using this
      have hsplit : ((keys s.lat ++ (s.opens.filter (fires tfire)).map Sock.url :
          List String) : Multiset String) =
          (keys s.lat : Multiset String) +
            ((s.opens.filter (fires tfire)).map Sock.url : Multiset String) := by
        simp
      rw [hsplit, ← h.perm, ← hpart, add_assoc]
    · intro p hp
      rw [hlat] at hp
      rcases List.mem_append.mp hp with hold | hnew
      · rcases h.entries p hold with he | ⟨t, ht, htp, hpn⟩
        · exact Or.inl he
        · exact Or.inr ⟨t, ht, htp, le_trans hpn (Nat.le_max_left _ _)⟩
      · rcases List.mem_map.mp hnew with ⟨k, hk, hpk⟩
        have hkfire : fires tfire k = true := List.of_mem_filter hk
        have hkopen : k ∈ s.opens := List.mem_of_mem_filter hk
        have hms := h.socks k hkopen
        cases het : k.eventTime with
        | none => rw [sockMatches, het] at hms; rw [fires, het] at hkfire; cases hkfire
        | some t =>
          rw [sockMatches, het] at hms
          rw [fires, het] at hkfire
          have htle : t ≤ tfire := by simpa using hkfire
          subst hpk
          exact Or.inr ⟨t, hms, htle, le_refl _⟩
    · intro k hk
      exact h.socks k (List.mem_of_mem_filter hk)

/-! ### Loop iteration lemmas -/

theorem loopCount_of_empty (timeout : Nat) :
    ∀ (n : Nat) (s : SchedState), s.opens = [] → loopCount timeout n s = s
  | 0, _, _ => rfl
  | n + 1, s, h => by
    unfold loopCount
    rw [if_pos (by rw [h]; rfl)]

theorem loopCount_inv (timeout : Nat) {U : List String} {env : Env} :
    ∀ (n : Nat) {s : SchedState}, Inv U env s → Inv U env (loopCount timeout n s)
  | 0, _, h => h
  | n + 1, s, h => by
    unfold loopCount
    by_cases he : s.opens.isEmpty
    · rw [if_pos he]; exact h
    · rw [if_neg he]
      exact loopCount_inv timeout n (poll_inv timeout h)

theorem loopCount_now_le (timeout : Nat) :
    ∀ (n : Nat) (s : SchedState), (loopCount timeout n s).now ≤ s.now + n * timeout
  | 0, s => by simp [loopCount]
  | n + 1, s => by
    unfold loopCount
    by_cases he : s.opens.isEmpty
    · rw [if_pos he]; exact Nat.le_add_right _ _
    · rw [if_neg he]
      have h1 := loopCount_now_le timeout n (poll timeout s)
      have h2 := poll_now_le timeout s
      calc (loopCount timeout n (poll timeout s)).now
          ≤ (poll timeout s).now + n * timeout := h1
        _ ≤ s.now + timeout + n * timeout := Nat.add_le_add_right h2 _
        _ = s.now + (n + 1) * timeout := by ring

theorem loopCount_lat_ne_nil (timeout : Nat) :
    ∀ (n : Nat) {s : SchedState}, s.lat ≠ [] → (loopCount timeout n s).lat ≠ []
  | 0, _, h => h
  | n + 1, s, h => by
    unfold loopCount
    by_cases he : s.opens.isEmpty
    · rw [if_pos he]; exact h
    · rw [if_neg he]
      exact loopCount_lat_ne_nil timeout n (poll_lat_ne_nil h)

theorem loopCount_opens_subset (timeout : Nat) :
    ∀ (n : Nat) {s : SchedState} {k : Sock},
      k ∈ (loopCount timeout n s).opens → k ∈ s.opens
  | 0, _, _, h => h
  | n + 1, s, k, h => by
    unfold loopCount at h
    by_cases he : s.opens.isEmpty
    · rw [if_pos he] at h; exact h
    · rw [if_neg he] at h
      exact poll_opens_subset (loopCount_opens_subset timeout n h)

/-! ### The construction loop establishes the invariant -/

theorem initLoop_inv (env : Env) : ∀ (us P : List String)
    (ss : List Sock) (ls : List (String × Nat)),
    (P ++ us).Nodup →
    (keys ls : Multiset String) + (ss.map Sock.url : Multiset String) = (P : Multiset String) →
    (∀ p ∈ ls, env p.1 = .gaierror ∧ p.2 = 1000) →
    (∀ k ∈ ss, sockMatches env k) →
    ∀ {ss' : List Sock} {ls' : List (String × Nat)},
      initLoop env us (ss, ls) = .ok (ss', ls') →
      ((keys ls' : Multiset String) + (ss'.map Sock.url : Multiset String) =
        ((P ++ us : List String) : Multiset String)) ∧
      (∀ p ∈ ls', env p.1 = .gaierror ∧ p.2 = 1000) ∧
      (∀ k ∈ ss', sockMatches env k)
  | [], P, ss, ls, _, hperm, hls, hss, ss', ls', h => by
    unfold initLoop at h
    cases h
    exact ⟨by simpa using hperm, hls, hss⟩
  | u :: rest, P, ss, ls, hnd, hperm, hls, hss, ss', ls', h => by
    have hndshift : ((P ++ [u]) ++ rest).Nodup := by
      rw [List.append_assoc]
      exact hnd
    have hunotP : u ∉ P := by
      rcases List.nodup_append.mp hnd with ⟨_, _, hdisj⟩
      intro hu
      exact hdisj hu (List.mem_cons_self u rest)
    have hukeys : u ∉ keys ls := by
      intro hu
      apply hunotP
      have : u ∈ (keys ls : Multiset String) + (ss.map Sock.url : Multiset String) := by
        rw [Multiset.mem_add]
        exact Or.inl (by exact_mod_cast hu)
      rw [hperm] at this
      exact_mod_cast this
    have hPu : ((P ++ [u] : List String) : Multiset String) =
        (P : Multiset String) + {u} := rfl
    unfold initLoop at h
    cases hpu : ParseURL u with
    | error e => rw [hpu] at h; cases h
    | ok v =>
      obtain ⟨vh, vp⟩ := v
      rw [hpu] at h
      cases vh with
      | none => cases h
      | some hst =>
        cases henv : env u with
        | gaierror =>
          rw [henv] at h
          have hperm' : (keys (addLat ls u 1000) : Multiset String) +
              (ss.map Sock.url : Multiset String) = ((P ++ [u] : List String) : Multiset String) := by
            rw [addLat_of_not_mem u 1000 hukeys]
            have hk2 : keys (ls ++ [(u, 1000)]) = keys ls ++ [u] := by simp [keys]
            have hsp : ((keys ls ++ [u] : List String) : Multiset String) =
                (keys ls : Multiset String) + {u} := rfl
            rw [hk2, hsp, hPu, ← hperm]
            exact add_right_comm _ _ _
          have hls' : ∀ p ∈ addLat ls u 1000, env p.1 = .gaierror ∧ p.2 = 1000 := by
            rw [addLat_of_not_mem u 1000 hukeys]
            intro p hp
            rcases List.mem_append.mp hp with hp | hp
            · exact hls p hp
            · rcases List.mem_singleton.mp hp with rfl
              exact ⟨henv, rfl⟩
          have hres := initLoop_inv env rest (P ++ [u]) ss (addLat ls u 1000)
            hndshift hperm' hls' hss h
          rw [List.append_assoc] at hres
          exact hres
        | writableAt t =>
          rw [henv] at h
          have hperm' : (keys ls : Multiset String) +
              ((ss ++ [Sock.mk u (some t)]).map Sock.url : Multiset String) =
              ((P ++ [u] : List String) : Multiset String) := by
            have hm : (ss ++ [Sock.mk u (some t)]).map Sock.url = ss.map Sock.url ++ [u] := by
              simp
            have hsp : ((ss.map Sock.url ++ [u] : List String) : Multiset String) =
                (ss.map Sock.url : Multiset String) + {u} := rfl
            rw [hm, hsp, hPu, ← hperm]
            exact (add_assoc _ _ _).symm
          have hss' : ∀ k ∈ ss ++ [Sock.mk u (some t)], sockMatches env k := by
            intro k hk
            rcases List.mem_append.mp hk with hk | hk
            · exact hss k hk
            · rcases List.mem_singleton.mp hk with rfl
              show env u = .writableAt t
              exact henv
          have hres := initLoop_inv env rest (P ++ [u]) (ss ++ [Sock.mk u (some t)]) ls
            hndshift hperm' hls hss' h
          rw [List.append_assoc] at hres
          exact hres
        | silent =>
          rw [henv] at h
          have hperm' : (keys ls : Multiset String) +
              ((ss ++ [Sock.mk u none]).map Sock.url : Multiset String) =
              ((P ++ [u] : List String) : Multiset String) := by
            have hm : (ss ++ [Sock.mk u none]).map Sock.url = ss.map Sock.url ++ [u] := by
              simp
            have hsp : ((ss.map Sock.url ++ [u] : List String) : Multiset String) =
                (ss.map Sock.url : Multiset String) + {u} := rfl
            rw [hm, hsp, hPu, ← hperm]
            exact (add_assoc _ _ _).symm
          have hss' : ∀ k ∈ ss ++ [Sock.mk u none], sockMatches env k := by
            intro k hk
            rcases List.mem_append.mp hk with hk | hk
            · exact hss k hk
            · rcases List.mem_singleton.mp hk with rfl
              show env u = .silent
              exact henv
          have hres := initLoop_inv env rest (P ++ [u]) (ss ++ [Sock.mk u none]) ls
            hndshift hperm' hls hss' h
          rw [List.append_assoc] at hres
          exact hres

/-! ### Stage plumbing -/

theorem exceptMap_ok {α β : Type} {f : α → β} {e : Except PyError α} {b : β}
    (h : e.map f = .ok b) : ∃ a, e = .ok a ∧ b = f a := by
  cases e with
  | error err => exact absurd h (by simp [Except.map])
  | ok a =>
    refine ⟨a, rfl, ?_⟩
    have h2 : Except.ok (f a) = (Except.ok b : Except PyError β) := h
    cases h2
    rfl

theorem initState_elim {env : Env} {sl : List String} {s0 : SchedState}
    (h : initState env sl = .ok s0) : Inv (pySet sl) env s0 ∧ s0.now = 0 := by
  unfold initState at h
  rcases exceptMap_ok h with ⟨⟨ss, ls⟩, hok, rfl⟩
  have hmain := initLoop_inv env (pySet sl) [] [] []
    (by simpa using pySet_nodup sl) (by rfl) (by simp) (by simp) hok
  refine ⟨⟨pySet_nodup sl, ?_, ?_, hmain.2.2⟩, rfl⟩
  · have := hmain.1
    simpa using this
  · intro p hp
    exact Or.inl (hmain.2.1 p hp)

theorem primaryState_elim {env : Env} {sl : List String} {s1 : SchedState}
    (h : primaryState env sl = .ok s1) :
    ∃ s0, initState env sl = .ok s0 ∧ s1 = loopCount 1 (primaryIters sl) s0 := by
  unfold primaryState at h
  rcases exceptMap_ok h with ⟨s0, hok, heq⟩
  exact ⟨s0, hok, heq⟩

theorem finalState_elim {env : Env} {sl : List String} {s2 : SchedState} {sw : Bool}
    (h : finalState env sl = .ok (s2, sw)) :
    ∃ s1, primaryState env sl = .ok s1 ∧
      ((s1.lat = [] ∧ s2 = loopAll 30 s1 ∧ sw = true) ∨
       (s1.lat ≠ [] ∧ s2 = s1 ∧ sw = false)) := by
  unfold finalState at h
  rcases exceptMap_ok h with ⟨s1, hok, heq⟩
  refine ⟨s1, hok, ?_⟩
  by_cases he : s1.lat.isEmpty
  · rw [if_pos he] at heq
    have hlat : s1.lat = [] := List.isEmpty_iff.mp he
    cases heq
    exact Or.inl ⟨hlat, rfl, rfl⟩
  · rw [if_neg he] at heq
    have hlat : s1.lat ≠ [] := by
      intro hc
      exact he (by rw [hc]; rfl)
    cases heq
    exact Or.inr ⟨hlat, rfl, rfl⟩

theorem run_elim {env : Env} {sl : List String} {r : RunResult}
    (h : FindFastestRun env sl = .ok r) :
    ∃ s2 sw, finalState env sl = .ok (s2, sw) ∧ r.table = s2.lat ∧
      r.ranking = pySort s2.lat ∧ r.stillWaiting = sw ∧
      r.abandoned = s2.opens.map Sock.url := by
  unfold FindFastestRun at h
  rcases exceptMap_ok h with ⟨⟨s2, sw⟩, hok, heq⟩
  subst heq
  exact ⟨s2, sw, hok, rfl, rfl, rfl, rfl⟩

theorem finalState_inv {env : Env} {sl : List String} {s2 : SchedState} {sw : Bool}
    (h : finalState env sl = .ok (s2, sw)) : Inv (pySet sl) env s2 := by
  rcases finalState_elim h with ⟨s1, hp, hcase⟩
  rcases primaryState_elim hp with ⟨s0, hi, hs1⟩
  have h1 : Inv (pySet sl) env s1 := by
    rw [hs1]
    exact loopCount_inv 1 _ (initState_elim hi).1
  rcases hcase with ⟨_, rfl, _⟩ | ⟨_, rfl, _⟩
  · exact loopCount_inv 30 _ h1
  · exact h1

theorem primary_now_le {env : Env} {sl : List String} {s1 : SchedState}
    (h : primaryState env sl = .ok s1) : s1.now ≤ 10 := by
  rcases primaryState_elim h with ⟨s0, hi, rfl⟩
  have h0 := (initState_elim hi).2
  have hb := loopCount_now_le 1 (primaryIters sl) s0
  rw [h0] at hb
  have hp : primaryIters sl ≤ 10 := Nat.min_le_right _ _
  calc (loopCount 1 (primaryIters sl) s0).now
      ≤ 0 + primaryIters sl * 1 := hb
    _ = primaryIters sl := by ring
    _ ≤ 10 := hp

theorem not_open_of_gaierror {U : List String} {env : Env} {s : SchedState}
    (h : Inv U env s) {u : String} (hg : env u = .gaierror) : u ∉ urlsOf s := by
  intro hin
  rcases List.mem_map.mp hin with ⟨k, hk, hke⟩
  have hms := h.socks k hk
  cases het : k.eventTime with
  | some t =>
    rw [sockMatches, het, hke] at hms
    rw [hms] at hg
    cases hg
  | none =>
    rw [sockMatches, het, hke] at hms
    rw [hms] at hg
    cases hg

theorem Inv.gaierror_entry {U : List String} {env : Env} {s : SchedState}
    (h : Inv U env s) {u : String} (hu : u ∈ U) (hg : env u = .gaierror) :
    (u, 1000) ∈ s.lat ∧ ∀ d, (u, d) ∈ s.lat → d = 1000 := by
  have hval : ∀ d, (u, d) ∈ s.lat → d = 1000 := by
    intro d hd
    rcases h.entries (u, d) hd with ⟨_, hv⟩ | ⟨t, ht, _, _⟩
    · exact hv
    · rw [hg] at ht; cases ht
  have hkey : u ∈ keys s.lat :=
    (h.mem_iff.mp hu).resolve_right (not_open_of_gaierror h hg)
  rcases List.mem_map.mp hkey with ⟨p, hp, hpu⟩
  have hp2 : p = (u, p.2) := by
    rw [← hpu]
  rw [hp2] at hp
  have := hval p.2 hp
  rw [this] at hp
  exact ⟨hp, hval⟩

theorem lat_ne_nil_of_gaierror {env : Env} {sl : List String} {s1 : SchedState} {u : String}
    (h : primaryState env sl = .ok s1) (hu : u ∈ pySet sl) (hg : env u = .gaierror) :
    s1.lat ≠ [] := by
  rcases primaryState_elim h with ⟨s0, hi, rfl⟩
  have hinv := (initState_elim hi).1
  have hukeys : u ∈ keys s0.lat :=
    (hinv.mem_iff.mp hu).resolve_right (not_open_of_gaierror hinv hg)
  have hne : s0.lat ≠ [] := by
    intro he
    rw [he] at hukeys
    exact absurd hukeys (by simp [keys])
  exact loopCount_lat_ne_nil 1 _ hne

/-! ### Termination of the unbounded secondary loop -/

/-- Every open socket eventually reports an event; the only situation in
which the real `asyncore.loop(timeout=30)` terminates. -/
def allWritable (s : SchedState) : Prop :=
  ∀ k ∈ s.opens, ∃ t, k.eventTime = some t

theorem le_foldrMax : ∀ (ks : List Sock) (k : Sock), k ∈ ks →
    k.eventTime.getD 0 ≤ ks.foldr (fun k m => Nat.max (k.eventTime.getD 0) m) 0
  | [], _, h => absurd h (List.not_mem_nil _)
  | k' :: ks, k, h => by
    rcases List.mem_cons.mp h with rfl | h
    · exact Nat.le_max_left _ _
    · exact le_trans (le_foldrMax ks k h) (Nat.le_max_right _ _)

theorem foldrMax_le : ∀ (ks : List Sock) (c : Nat),
    (∀ k ∈ ks, k.eventTime.getD 0 ≤ c) →
    ks.foldr (fun k m => Nat.max (k.eventTime.getD 0) m) 0 ≤ c
  | [], _, _ => Nat.zero_le _
  | k' :: ks, c, h => by
    apply Nat.max_le.mpr
    constructor
    · exact h k' (List.mem_cons_self k' ks)
    · exact foldrMax_le ks c (fun k hk => h k (List.mem_cons_of_mem k' hk))

theorem maxEvent_poll_le (timeout : Nat) (s : SchedState) :
    maxEvent (poll timeout s) ≤ maxEvent s := by
  apply foldrMax_le
  intro k hk
  exact le_foldrMax s.opens k (poll_opens_subset hk)

theorem poll_measure_lt {timeout : Nat} (ht : 1 ≤ timeout) {s : SchedState}
    (hne : s.opens ≠ []) (hw : allWritable s) :
    (poll timeout s).opens.length + (maxEvent (poll timeout s) - (poll timeout s).now) <
      s.opens.length + (maxEvent s - s.now) := by
  cases hm : minAux (readyTimes timeout s.now s.opens) with
  | none =>
    have hrt : readyTimes timeout s.now s.opens = [] := minAux_eq_none.mp hm
    rcases List.exists_mem_of_ne_nil s.opens hne with ⟨k0, hk0⟩
    rcases hw k0 hk0 with ⟨t0, ht0⟩
    have hlate : s.now + timeout < t0 := by
      by_contra hc
      have : t0 ∈ readyTimes timeout s.now s.opens :=
        mem_readyTimes.mpr ⟨k0, hk0, ht0, by omega⟩
      rw [hrt] at this
      exact absurd this (List.not_mem_nil _)
    have hmax : s.now + timeout < maxEvent s := by
      have := le_foldrMax s.opens k0 hk0
      rw [ht0] at this
      calc s.now + timeout < t0 := hlate
        _ ≤ maxEvent s := this
    rw [poll_eq_none hm]
    have hms : maxEvent { s with now := s.now + timeout } = maxEvent s := rfl
    rw [hms]
    dsimp only
    omega
  | some tmin =>
    have hnowle := poll_now_ge timeout s
    have hmaxle := maxEvent_poll_le timeout s
    have hlen : (poll timeout s).opens.length < s.opens.length := by
      rw [poll_eq_some hm]
      rcases mem_readyTimes.mp (minAux_mem hm) with ⟨k, hk, hket, _⟩
      apply List.length_filter_lt_length_iff_exists.mpr
      refine ⟨k, hk, ?_⟩
      have hf : fires (Nat.max s.now tmin) k = true := by
        rw [fires, hket]
        simp [Nat.le_max_right]
      simp [hf]
    omega

theorem loopCount_empties (timeout : Nat) (ht : 1 ≤ timeout) :
    ∀ (N : Nat) (s : SchedState),
      s.opens.length + (maxEvent s - s.now) < N → allWritable s →
      (loopCount timeout N s).opens = []
  | 0, _, hlt, _ => absurd hlt (Nat.not_lt_zero _)
  | N + 1, s, hlt, hw => by
    unfold loopCount
    by_cases he : s.opens.isEmpty
    · rw [if_pos he]
      exact List.isEmpty_iff.mp he
    · rw [if_neg he]
      have hne : s.opens ≠ [] := by
        intro hc
        exact he (by rw [hc]; rfl)
      have hdec := poll_measure_lt ht hne hw
      have hw' : allWritable (poll timeout s) :=
        fun k hk => hw k (poll_opens_subset hk)
      exact loopCount_empties timeout ht N (poll timeout s) (by omega) hw'

theorem loopAll_empties {s : SchedState} (hw : allWritable s) :
    (loopAll 30 s).opens = [] := by
  unfold loopAll secFuel
  exact loopCount_empties 30 (by omega) _ s (by omega) hw

/-! ### Fast completions are all collected within two polls -/

theorem poll_fast_case {s : SchedState} (hnow : s.now = 0)
    (hfast : ∀ k ∈ s.opens, ∃ t, k.eventTime = some t ∧ t ≤ 1) (hne : s.opens ≠ []) :
    (poll 1 s).opens = [] ∨
      ((poll 1 s).now = 0 ∧ ∀ k ∈ (poll 1 s).opens, k.eventTime = some 1) := by
  rcases List.exists_mem_of_ne_nil s.opens hne with ⟨k0, hk0⟩
  rcases hfast k0 hk0 with ⟨t0, ht0, ht0le⟩
  have hmem0 : t0 ∈ readyTimes 1 s.now s.opens :=
    mem_readyTimes.mpr ⟨k0, hk0, ht0, by omega⟩
  cases hm : minAux (readyTimes 1 s.now s.opens) with
  | none =>
    rw [minAux_eq_none.mp hm] at hmem0
    exact absurd hmem0 (List.not_mem_nil _)
  | some tmin =>
    have htmin : tmin ≤ 1 := by
      rcases mem_readyTimes.mp (minAux_mem hm) with ⟨k, hk, hket, _⟩
      rcases hfast k hk with ⟨t, htet, htle⟩
      rw [hket] at htet
      cases htet
      exact htle
    by_cases h1 : 1 ≤ Nat.max s.now tmin
    · left
      rw [poll_eq_some hm]
      apply List.filter_eq_nil_iff.mpr
      intro k hk
      rcases hfast k hk with ⟨t, hket, htle⟩
      have hf : fires (Nat.max s.now tmin) k = true := by
        rw [fires, hket]
        simp only [decide_eq_true_eq]
        omega
      simp [hf]
    · right
      have hmax0 : Nat.max s.now tmin = 0 := by omega
      rw [poll_eq_some hm]
      constructor
      · exact hmax0
      · intro k hk
        have hkmem : k ∈ s.opens := List.mem_of_mem_filter hk
        have hnf : fires (Nat.max s.now tmin) k = false := by
          have := List.of_mem_filter hk
          cases hff : fires (Nat.max s.now tmin) k
          · rfl
          · rw [hff] at this; simp at this
        rcases hfast k hkmem with ⟨t, hket, htle⟩
        rw [fires, hket, hmax0] at hnf
        have ht1 : t = 1 := by
          simp only [decide_eq_false_iff_not] at hnf
          omega
        rw [hket, ht1]

theorem poll_all_one {s : SchedState} (hnow : s.now = 0)
    (hone : ∀ k ∈ s.opens, k.eventTime = some 1) : (poll 1 s).opens = [] := by
  cases hm : minAux (readyTimes 1 s.now s.opens) with
  | none =>
    rw [poll_eq_none hm]
    by_contra hc
    rcases List.exists_mem_of_ne_nil s.opens hc with ⟨k0, hk0⟩
    have h1 : (1 : Nat) ∈ readyTimes 1 s.now s.opens :=
      mem_readyTimes.mpr ⟨k0, hk0, hone k0 hk0, by omega⟩
    rw [minAux_eq_none.mp hm] at h1
    exact absurd h1 (List.not_mem_nil _)
  | some tmin =>
    have htmin : tmin = 1 := by
      rcases mem_readyTimes.mp (minAux_mem hm) with ⟨k, hk, hket, _⟩
      have := hone k hk
      rw [hket] at this
      cases this
      rfl
    rw [poll_eq_some hm]
    apply List.filter_eq_nil_iff.mpr
    intro k hk
    have hf : fires (Nat.max s.now tmin) k = true := by
      rw [fires, hone k hk, htmin]
      simp [Nat.le_max_right]
    simp [hf]

theorem fast_loopCount_empties {s : SchedState} (hnow : s.now = 0)
    (hfast : ∀ k ∈ s.opens, ∃ t, k.eventTime = some t ∧ t ≤ 1) :
    ∀ n, 2 ≤ n → (loopCount 1 n s).opens = [] := by
  intro n hn
  obtain ⟨m, rfl⟩ : ∃ m, n = m + 2 := ⟨n - 2, by omega⟩
  show (loopCount 1 (m + 1 + 1) s).opens = []
  unfold loopCount
  by_cases he : s.opens.isEmpty
  · rw [if_pos he]
    exact List.isEmpty_iff.mp he
  · rw [if_neg he]
    have hne : s.opens ≠ [] := by
      intro hc
      exact he (by rw [hc]; rfl)
    rcases poll_fast_case hnow hfast hne with hp | ⟨hn0, hone⟩
    · rw [loopCount_of_empty 1 (m + 1) _ hp]
      exact hp
    · unfold loopCount
      by_cases he' : (poll 1 s).opens.isEmpty
      · rw [if_pos he']
        exact List.isEmpty_iff.mp he'
      · rw [if_neg he']
        have h2 : (poll 1 (poll 1 s)).opens = [] := poll_all_one hn0 hone
        rw [loopCount_of_empty 1 m _ h2]
        exact h2

/-! ### Parse and host outcomes decide whether the call returns or raises -/

theorem hasHost_elim {u : String} (h : hasHost u = true) :
    ∃ hst port, ParseURL u = .ok (some hst, port) := by
  unfold hasHost at h
  cases hpu : ParseURL u with
  | error e => rw [hpu] at h; cases h
  | ok v =>
    obtain ⟨vh, vp⟩ := v
    rw [hpu] at h
    cases vh with
    | none => cases h
    | some hst => exact ⟨hst, vp, rfl⟩

theorem initLoop_ok_of_hosts (env : Env) : ∀ (us : List String)
    (acc : List Sock × List (String × Nat)),
    (∀ u ∈ us, hasHost u = true) →
    ∃ out, initLoop env us acc = .ok out
  | [], acc, _ => ⟨acc, rfl⟩
  | u :: rest, acc, h => by
    have hu := h u (List.mem_cons_self u rest)
    have hrest : ∀ v ∈ rest, hasHost v = true :=
      fun v hv => h v (List.mem_cons_of_mem u hv)
    rcases hasHost_elim hu with ⟨hst, port, hpu⟩
    unfold initLoop
    rw [hpu]
    cases henv : env u with
    | gaierror => exact initLoop_ok_of_hosts env rest _ hrest
    | writableAt t => exact initLoop_ok_of_hosts env rest _ hrest
    | silent => exact initLoop_ok_of_hosts env rest _ hrest

theorem run_ok_of_hosts {env : Env} {sl : List String}
    (h : ∀ u ∈ pySet sl, hasHost u = true) :
    ∃ r, FindFastestRun env sl = .ok r := by
  rcases initLoop_ok_of_hosts env (pySet sl) ([], []) h with ⟨out, hok⟩
  unfold FindFastestRun finalState primaryState initState
  rw [hok]
  exact ⟨_, rfl⟩

/-- C1: for every latency table produced by a ranking call, the returned
ranking is the sequence of that table's entries sorted ascending by the pair
(elapsed latency, URL string): it is a permutation of the table, consecutive
entries are nondecreasing in latency with ties in ascending lexical URL
order, and no URL appears twice, so two distinct URLs with equal latency
appear in strictly ascending URL order. -/
theorem c1_ranking_sorted {env : Env} {sl : List String} {r : RunResult}
    (h : FindFastestRun env sl = .ok r) :
    List.Perm r.ranking r.table ∧ r.ranking.Pairwise rankOrd ∧
      (keys r.ranking).Nodup := by
  rcases run_elim h with ⟨s2, _, hf, htab, hrank, _, _⟩
  have hinv := finalState_inv hf
  refine ⟨?_, ?_, ?_⟩
  · rw [htab, hrank]
    exact pySort_perm s2.lat
  · rw [hrank]
    exact pySort_sorted s2.lat
  · rw [hrank]
    exact (((pySort_perm s2.lat).map Prod.fst).nodup_iff).mpr hinv.keys_nodup

def envC1 : Env := fun _ => ConnBehavior.writableAt 0

def runC1 : RunResult :=
  { table := [("http://a/", 0), ("http://b/", 0)]
    ranking := [("http://a/", 0), ("http://b/", 0)]
    stillWaiting := false
    abandoned := [] }

/-- Witness for C1: a concrete run with two URLs completing simultaneously,
whose ranking ties are broken by URL order. -/
theorem c1_witness :
    List.Perm runC1.ranking runC1.table ∧ runC1.ranking.Pairwise rankOrd ∧
      (keys runC1.ranking).Nodup :=
  c1_ranking_sorted
    (show FindFastestRun envC1 ["http://b/", "http://a/"] = .ok runC1 by decide)

/-- C2: in a run whose input contains an unresolvable URL `u`, and where some
URL `v` completed a real connection, `u` is recorded with the sentinel
latency 1000 rather than dropped, the completed latency is below the
sentinel, and `u` ranks strictly after `v` in the returned ranking. -/
theorem c2_sentinel_dominance {env : Env} {sl : List String} {r : RunResult}
    {u v : String} {t dv : Nat}
    (h : FindFastestRun env sl = .ok r) (hu : u ∈ sl) (hg : env u = .gaierror)
    (hv : (v, dv) ∈ r.ranking) (hw : env v = .writableAt t) :
    (u, 1000) ∈ r.ranking ∧ dv < 1000 ∧
      ∀ (i j : Fin r.ranking.length),
        r.ranking.get i = (u, 1000) → r.ranking.get j = (v, dv) → j < i := by
  rcases run_elim h with ⟨s2, _, hf, _, hrank, _, _⟩
  have hinv := finalState_inv hf
  have huU : u ∈ pySet sl := mem_pySet.mpr hu
  have hent := hinv.gaierror_entry huU hg
  have hmemrank : (u, 1000) ∈ r.ranking := by
    rw [hrank]
    exact (pySort_perm s2.lat).mem_iff.mpr hent.1
  have hvlat : (v, dv) ∈ s2.lat := by
    rw [hrank] at hv
    exact (pySort_perm s2.lat).mem_iff.mp hv
  rcases finalState_elim hf with ⟨s1, hp, hcase⟩
  have hs1ne : s1.lat ≠ [] := lat_ne_nil_of_gaierror hp huU hg
  have hs2eq : s2 = s1 := by
    rcases hcase with ⟨hlat, _, _⟩ | ⟨_, he, _⟩
    · exact absurd hlat hs1ne
    · exact he
  have hdvle : dv ≤ s1.now := by
    rcases hinv.entries (v, dv) hvlat with ⟨hge, _⟩ | ⟨t', _, _, hle⟩
    · rw [hw] at hge
      cases hge
    · rw [hs2eq] at hle
      exact hle
  have hnow := primary_now_le hp
  have hdv : dv < 1000 := by omega
  refine ⟨hmemrank, hdv, ?_⟩
  have hsorted : r.ranking.Pairwise rankOrd := by
    rw [hrank]
    exact pySort_sorted s2.lat
  intro i j hi hj
  rcases lt_trichotomy i j with hij | hij | hij
  · exfalso
    have hrel := List.pairwise_iff_get.mp hsorted i j hij
    rw [hi, hj] at hrel
    simp only [rankOrd] at hrel
    rcases hrel with hlt | ⟨heq, _⟩
    · omega
    · omega
  · exfalso
    have : (u, 1000) = (v, dv) := by rw [← hi, ← hj, hij]
    have : (1000 : Nat) = dv := congrArg Prod.snd this
    omega
  · exact hij

def envC2 : Env := fun u => if u = "http://b/" then .gaierror else .writableAt 0

def runC2 : RunResult :=
  { table := [("http://b/", 1000), ("http://a/", 0)]
    ranking := [("http://a/", 0), ("http://b/", 1000)]
    stillWaiting := false
    abandoned := [] }

/-- Witness for C2: an unresolvable URL together with an instantly completing
one; the sentinel entry ranks last. -/
theorem c2_witness :
    ("http://b/", 1000) ∈ runC2.ranking ∧ 0 < 1000 ∧
      ∀ (i j : Fin runC2.ranking.length),
        runC2.ranking.get i = ("http://b/", 1000) →
        runC2.ranking.get j = ("http://a/", 0) → j < i :=
  c2_sentinel_dominance
    (show FindFastestRun envC2 ["http://a/", "http://b/"] = .ok runC2 by decide)
    (by decide) (by decide) (by decide) (show envC2 "http://a/" = .writableAt 0 by decide)

/-- C3: ranking a list with its duplicates appended gives exactly the same
observable run as ranking the list itself, because the input is deduplicated
with set semantics before any probe is started. -/
theorem c3_dedup_idempotent (env : Env) (sl : List String) :
    FindFastestRun env (sl ++ sl) = FindFastestRun env sl ∧
      probesStarted (sl ++ sl) = probesStarted sl := by
  have h := pySet_append_self sl
  constructor
  · unfold FindFastestRun finalState primaryState initState primaryIters
    rw [h]
  · unfold probesStarted
    rw [h]

/-- C4: every ranked pair's URL comes from the input list, each URL appears
at most once, and when no probe is abandoned every input URL appears. -/
theorem c4_ranking_within_input {env : Env} {sl : List String} {r : RunResult}
    (h : FindFastestRun env sl = .ok r) :
    (∀ p ∈ r.ranking, p.1 ∈ sl) ∧ (keys r.ranking).Nodup ∧
      (r.abandoned = [] → ∀ u ∈ sl, ∃ d, (u, d) ∈ r.ranking) := by
  rcases run_elim h with ⟨s2, _, hf, _, hrank, _, habd⟩
  have hinv := finalState_inv hf
  refine ⟨?_, ?_, ?_⟩
  · intro p hp
    rw [hrank] at hp
    have hpl : p ∈ s2.lat := (pySort_perm s2.lat).mem_iff.mp hp
    have hk : p.1 ∈ keys s2.lat := List.mem_map_of_mem Prod.fst hpl
    exact mem_pySet.mp (hinv.mem_iff.mpr (Or.inl hk))
  · rw [hrank]
    exact (((pySort_perm s2.lat).map Prod.fst).nodup_iff).mpr hinv.keys_nodup
  · intro hab u hu
    have hob : urlsOf s2 = [] := by
      show s2.opens.map Sock.url = []
      rw [← habd]
      exact hab
    have huU : u ∈ pySet sl := mem_pySet.mpr hu
    rcases hinv.mem_iff.mp huU with hk | ho
    · rcases List.mem_map.mp hk with ⟨p, hp, hpu⟩
      subst hpu
      refine ⟨p.2, ?_⟩
      rw [hrank]
      exact (pySort_perm s2.lat).mem_iff.mpr hp
    · rw [hob] at ho
      exact absurd ho (List.not_mem_nil u)

def envC4 : Env := fun _ => ConnBehavior.writableAt 1

def runC4 : RunResult :=
  { table := [("http://a/", 1), ("http://b/", 1)]
    ranking := [("http://a/", 1), ("http://b/", 1)]
    stillWaiting := false
    abandoned := [] }

/-- Witness for C4: a run with a duplicated input URL, nothing abandoned. -/
theorem c4_witness :
    (∀ p ∈ runC4.ranking, p.1 ∈ ["http://a/", "http://a/", "http://b/"]) ∧
      (keys runC4.ranking).Nodup ∧
      (runC4.abandoned = [] →
        ∀ u ∈ ["http://a/", "http://a/", "http://b/"], ∃ d, (u, d) ∈ runC4.ranking) :=
  c4_ranking_within_input
    (show FindFastestRun envC4 ["http://a/", "http://a/", "http://b/"] = .ok runC4 by decide)

/-- C5: when the deduplicated URL set is empty the call returns an empty
ranking and starts no probe. -/
theorem c5_empty_input (env : Env) {sl : List String} (h : pySet sl = []) :
    FindFastestRun env sl = .ok ⟨[], [], true, []⟩ ∧ probesStarted sl = [] := by
  constructor
  · unfold FindFastestRun finalState primaryState initState primaryIters
    rw [h]
    rfl
  · unfold probesStarted
    rw [h]
    rfl

def envC5 : Env := fun _ => ConnBehavior.silent

/-- Witness for C5 at the empty input list. -/
theorem c5_witness :
    FindFastestRun envC5 [] = .ok ⟨[], [], true, []⟩ ∧ probesStarted [] = [] :=
  c5_empty_input envC5 (by decide)

/-- C7: the primary wait phase runs at most 10 loop iterations whenever more
than 10 unique URLs are supplied, and this cap drops no valid completion that
arrives before the cap is reached: for 15 URLs that all respond within 1
time unit (a responding URL parses with a host — so its probe reaches the
event loop — and becomes writable by time 1), every supplied URL appears in
the ranking. -/
theorem c7_cap_and_completions :
    (∀ sl : List String, 10 < (pySet sl).length → primaryIters sl = 10) ∧
    (∀ (env : Env) (sl : List String),
      (pySet sl).length = 15 →
      (∀ u ∈ pySet sl, hasHost u = true ∧
        ∃ t, t ≤ 1 ∧ env u = .writableAt t) →
      ∃ r, FindFastestRun env sl = .ok r ∧ ∀ u ∈ sl, ∃ d, (u, d) ∈ r.ranking) := by
  constructor
  · intro sl hlen
    unfold primaryIters
    exact min_eq_right (by omega)
  · intro env sl hlen hprop
    have hok : ∀ u ∈ pySet sl, hasHost u = true := fun u hu => (hprop u hu).1
    rcases run_ok_of_hosts hok with ⟨r, hr⟩
    refine ⟨r, hr, ?_⟩
    rcases run_elim hr with ⟨s2, _, hf, _, hrank, _, _⟩
    have hinv := finalState_inv hf
    rcases finalState_elim hf with ⟨s1, hp, hcase⟩
    rcases primaryState_elim hp with ⟨s0, hi, hs1⟩
    obtain ⟨hinv0, hnow0⟩ := initState_elim hi
    have hfast : ∀ k ∈ s0.opens, ∃ t, k.eventTime = some t ∧ t ≤ 1 := by
      intro k hk
      have hms := hinv0.socks k hk
      have hkU : k.url ∈ pySet sl :=
        hinv0.mem_iff.mpr (Or.inr (List.mem_map_of_mem Sock.url hk))
      rcases (hprop k.url hkU).2 with ⟨t, htle, henv⟩
      cases het : k.eventTime with
      | none =>
        rw [sockMatches, het] at hms
        rw [hms] at henv
        cases henv
      | some t' =>
        rw [sockMatches, het] at hms
        rw [hms] at henv
        injection henv with ht'
        exact ⟨t', rfl, by omega⟩
    have hiters : 2 ≤ primaryIters sl := by
      unfold primaryIters
      rw [hlen]
      decide
    have hs1opens : s1.opens = [] := by
      rw [hs1]
      exact fast_loopCount_empties hnow0 hfast (primaryIters sl) hiters
    have hs2 : s2 = s1 := by
      rcases hcase with ⟨_, he, _⟩ | ⟨_, he, _⟩
      · rw [he]
        unfold loopAll
        exact loopCount_of_empty 30 _ s1 hs1opens
      · exact he
    intro u hu
    have huU : u ∈ pySet sl := mem_pySet.mpr hu
    have hob : urlsOf s2 = [] := by
      rw [hs2]
      show s1.opens.map Sock.url = []
      rw [hs1opens]
      rfl
    rcases hinv.mem_iff.mp huU with hk | ho
    · rcases List.mem_map.mp hk with ⟨p, hp, hpu⟩
      subst hpu
      refine ⟨p.2, ?_⟩
      rw [hrank]
      exact (pySort_perm s2.lat).mem_iff.mpr hp
    · rw [hob] at ho
      exact absurd ho (List.not_mem_nil u)

def env15 : Env := fun _ => ConnBehavior.writableAt 1

def sl15 : List String :=
  ["http://a/", "http://b/", "http://c/", "http://d/", "http://e/",
   "http://f/", "http://g/", "http://h/", "http://i/", "http://j/",
   "http://k/", "http://l/", "http://m/", "http://n/", "http://o/"]

/-- Witness for C7: 15 URLs, all completing at time 1; the cap is 10 and all
15 are ranked. -/
theorem c7_witness :
    primaryIters sl15 = 10 ∧
      ∃ r, FindFastestRun env15 sl15 = .ok r ∧ ∀ u ∈ sl15, ∃ d, (u, d) ∈ r.ranking :=
  ⟨c7_cap_and_completions.1 sl15 (by decide),
   c7_cap_and_completions.2 env15 sl15 (by decide)
     (fun u hu => ⟨by revert hu; revert u; decide, 1, by decide, rfl⟩)⟩

/-- C8 (amended): the "still waiting" diagnostic and the single secondary
wait phase occur exactly when the latency table is empty after the primary
phase, and the secondary phase polls with a 30-time-unit timeout until every
remaining socket has reported — when each one eventually does, no probe is
abandoned, however late the completions — rather than giving up after about
30 time units; if the table is non-empty after the primary phase, no
secondary wait occurs. -/
theorem c8_secondary_wait {env : Env} {sl : List String} {s1 : SchedState} {r : RunResult}
    (hp : primaryState env sl = .ok s1) (h : FindFastestRun env sl = .ok r) :
    (r.stillWaiting = true ↔ s1.lat = []) ∧
      (s1.lat = [] → (∀ k ∈ s1.opens, ∃ t, k.eventTime = some t) →
        r.abandoned = []) := by
  rcases run_elim h with ⟨s2, sw, hf, _, _, hsw, habd⟩
  rcases finalState_elim hf with ⟨s1', hp', hcase⟩
  rw [hp] at hp'
  cases hp'
  constructor
  · rcases hcase with ⟨hlat, _, hswt⟩ | ⟨hlat, _, hswf⟩
    · rw [hsw, hswt]
      simp [hlat]
    · rw [hsw, hswf]
      simp [hlat]
  · intro hlat hw
    rcases hcase with ⟨_, hs2, _⟩ | ⟨hne, _, _⟩
    · rw [habd, hs2]
      have hemp : (loopAll 30 s1).opens = [] := loopAll_empties hw
      rw [hemp]
      rfl
    · exact absurd hlat hne

def env8 : Env := fun _ => ConnBehavior.writableAt 100

def s1C8 : SchedState :=
  { now := 1, opens := [{ url := "http://slow/", eventTime := some 100 }], lat := [] }

def runC8 : RunResult :=
  { table := [("http://slow/", 100)]
    ranking := [("http://slow/", 100)]
    stillWaiting := true
    abandoned := [] }

/-- Witness for C8 at a concrete slow completion. -/
theorem c8_witness :
    (runC8.stillWaiting = true ↔ s1C8.lat = []) ∧
      (s1C8.lat = [] → (∀ k ∈ s1C8.opens, ∃ t, k.eventTime = some t) →
        runC8.abandoned = []) :=
  c8_secondary_wait
    (show primaryState env8 ["http://slow/"] = .ok s1C8 by decide)
    (show FindFastestRun env8 ["http://slow/"] = .ok runC8 by decide)

/-- C8 counterexample: one URL whose connection completes at time 100.  The
primary phase ends at time 1 with an empty table and the diagnostic fires,
so under the claim the scheduler would give up about 30 time units later —
well before time 100 even with generous slack — and the completion would be
dropped.  Instead the code records and ranks it and abandons nothing: the
secondary wait is not bounded by ≈30 time units. -/
theorem c8_counterexample :
    FindFastestRun env8 ["http://slow/"] =
      .ok ⟨[("http://slow/", 100)], [("http://slow/", 100)], true, []⟩ ∧
      1 + 30 + 30 < 100 :=
  ⟨by decide, by decide⟩

/-- C9: every probe still open when the wait phases end is closed and
abandoned; abandoned URLs have no entry in the latency table and are omitted
from the ranking, and the ranking is exactly the sort of the table built
before the closing (so closing leaves the table unchanged). -/
theorem c9_abandoned_dropped {env : Env} {sl : List String} {r : RunResult}
    (h : FindFastestRun env sl = .ok r) :
    (∀ u ∈ r.abandoned, ∀ d, (u, d) ∉ r.table) ∧
      (∀ u ∈ r.abandoned, ∀ d, (u, d) ∉ r.ranking) ∧
      List.Perm r.ranking r.table := by
  rcases run_elim h with ⟨s2, _, hf, htab, hrank, _, habd⟩
  have hinv := finalState_inv hf
  have htabm : ∀ u ∈ r.abandoned, ∀ d, (u, d) ∉ r.table := by
    intro u hu d hd
    rw [htab] at hd
    rw [habd] at hu
    exact hinv.disjoint u (List.mem_map_of_mem Prod.fst hd) hu
  refine ⟨htabm, ?_, ?_⟩
  · intro u hu d hd
    apply htabm u hu d
    rw [htab]
    rw [hrank] at hd
    exact (pySort_perm s2.lat).mem_iff.mp hd
  · rw [htab, hrank]
    exact pySort_perm s2.lat

def envC9 : Env := fun u => if u = "http://dead/" then .silent else .writableAt 0

def runC9 : RunResult :=
  { table := [("http://fast/", 0)]
    ranking := [("http://fast/", 0)]
    stillWaiting := false
    abandoned := ["http://dead/"] }

/-- Witness for C9: a silent probe is abandoned and dropped while the fast
one is ranked. -/
theorem c9_witness :
    (∀ u ∈ runC9.abandoned, ∀ d, (u, d) ∉ runC9.table) ∧
      (∀ u ∈ runC9.abandoned, ∀ d, (u, d) ∉ runC9.ranking) ∧
      List.Perm runC9.ranking runC9.table :=
  c9_abandoned_dropped
    (show FindFastestRun envC9 ["http://fast/", "http://dead/"] = .ok runC9 by decide)

/-- C10: a URL whose probe start raises a host-resolution error is recorded
with latency exactly the constant 1000, independent of elapsed time; that is
its only entry in the ranking, and its socket is closed immediately so the
URL is never among the abandoned probes. -/
theorem c10_sentinel_constant {env : Env} {sl : List String} {r : RunResult} {u : String}
    (h : FindFastestRun env sl = .ok r) (hu : u ∈ sl) (hg : env u = .gaierror) :
    (u, 1000) ∈ r.ranking ∧ (∀ d, (u, d) ∈ r.ranking → d = 1000) ∧
      u ∉ r.abandoned := by
  rcases run_elim h with ⟨s2, _, hf, _, hrank, _, habd⟩
  have hinv := finalState_inv hf
  have huU : u ∈ pySet sl := mem_pySet.mpr hu
  have hent := hinv.gaierror_entry huU hg
  refine ⟨?_, ?_, ?_⟩
  · rw [hrank]
    exact (pySort_perm s2.lat).mem_iff.mpr hent.1
  · intro d hd
    rw [hrank] at hd
    exact hent.2 d ((pySort_perm s2.lat).mem_iff.mp hd)
  · rw [habd]
    exact not_open_of_gaierror hinv hg

def envC10 : Env := fun _ => ConnBehavior.gaierror

def runC10 : RunResult :=
  { table := [("http://x/", 1000)]
    ranking := [("http://x/", 1000)]
    stillWaiting := false
    abandoned := [] }

/-- Witness for C10 at a single unresolvable URL. -/
theorem c10_witness :
    ("http://x/", 1000) ∈ runC10.ranking ∧
      (∀ d, ("http://x/", d) ∈ runC10.ranking → d = 1000) ∧
      "http://x/" ∉ runC10.abandoned :=
  c10_sentinel_constant
    (show FindFastestRun envC10 ["http://x/"] = .ok runC10 by decide)
    (by decide) (by decide)

end FastestSites
